import Mathlib

/-!
Verification of `pythainlp/util/wordtonum.py`: the conversion of
spelled-out Thai numerals to integers.

The development embeds the module shallowly:

* `Regex` with a Brzozowski-derivative matcher embeds Python's `re`;
  `_re_thai_numerals` transcribes the validation pattern of the source
  line by line (each alternative group keeps its order, with the empty
  alternative first).
* `_digits`, `_powers_of_10`, `_valid_tokens`, `accumStep`,
  `accumulate` and `thaiword_to_num` embed the tables and the
  conversion function of the source.
* `word_tokenize` models the collaborator tokenizer
  (`pythainlp.tokenize.Tokenizer`, outside this unit) from its
  documented contract: greedy longest-match segmentation over the fixed
  vocabulary, covering the input exactly.
* `specScan` restates the accumulation algorithm in the words of the
  design document, to be compared against `accumulate`.

Theorems after the definitions settle the behavioural claims: the
literal scenarios, the total case analysis, the full-match requirement,
ordering of place-value words, the position restrictions on the
alternate digit forms, non-negativity, and the reachability of the
`max(pending, 1)` guard.
-/

set_option maxRecDepth 8000

namespace ThaiNum

/-- A regular expression over an arbitrary alphabet, the shape of the
pattern `_re_thai_numerals` in `pythainlp/util/wordtonum.py`. -/
inductive Regex (α : Type) where
  | emp : Regex α
  | eps : Regex α
  | chr (a : α) : Regex α
  | alt (r1 r2 : Regex α) : Regex α
  | cat (r1 r2 : Regex α) : Regex α
  | star (r : Regex α) : Regex α
deriving DecidableEq

namespace Regex

/-- Smart alternation used by the derivative: drops `emp` branches. -/
def altS : Regex α → Regex α → Regex α
  | .emp, r => r
  | r, .emp => r
  | r1, r2 => .alt r1 r2

/-- Smart concatenation used by the derivative: simplifies `emp` and `eps`. -/
def catS : Regex α → Regex α → Regex α
  | .emp, _ => .emp
  | _, .emp => .emp
  | .eps, r => r
  | r, .eps => r
  | r1, r2 => .cat r1 r2

/-- Does the expression accept the empty word? -/
def nullable : Regex α → Bool
  | .emp => false
  | .eps => true
  | .chr _ => false
  | .alt r1 r2 => nullable r1 || nullable r2
  | .cat r1 r2 => nullable r1 && nullable r2
  | .star _ => true

/-- Brzozowski derivative with respect to one letter. -/
def deriv [DecidableEq α] : Regex α → α → Regex α
  | .emp, _ => .emp
  | .eps, _ => .emp
  | .chr a, c => if a = c then .eps else .emp
  | .alt r1 r2, c => altS (deriv r1 c) (deriv r2 c)
  | .cat r1 r2, c =>
      altS (catS (deriv r1 c) r2) (if nullable r1 then deriv r2 c else .emp)
  | .star r, c => catS (deriv r c) (.star r)

/-- Full match of a word against the expression, the embedding of
Python's `re.fullmatch`. -/
def matchL [DecidableEq α] (r : Regex α) (xs : List α) : Bool :=
  nullable (xs.foldl deriv r)

/-- The letters literally occurring in the expression. -/
def atoms : Regex α → List α
  | .emp => []
  | .eps => []
  | .chr a => [a]
  | .alt r1 r2 => atoms r1 ++ atoms r2
  | .cat r1 r2 => atoms r1 ++ atoms r2
  | .star r => atoms r

/-- The language of a regular expression. -/
inductive Matches : Regex α → List α → Prop where
  | eps : Matches .eps []
  | chr (a : α) : Matches (.chr a) [a]
  | altL {r1 r2 : Regex α} {s : List α} : Matches r1 s → Matches (.alt r1 r2) s
  | altR {r1 r2 : Regex α} {s : List α} : Matches r2 s → Matches (.alt r1 r2) s
  | cat {r1 r2 : Regex α} {s1 s2 : List α} :
      Matches r1 s1 → Matches r2 s2 → Matches (.cat r1 r2) (s1 ++ s2)
  | starNil {r : Regex α} : Matches (.star r) []
  | starCons {r : Regex α} {s1 s2 : List α} :
      Matches r s1 → Matches (.star r) s2 → Matches (.star r) (s1 ++ s2)

end Regex

/-- The regular expression matching exactly one literal string. -/
def reOfString (s : String) : Regex Char :=
  s.data.foldr (fun c r => .cat (.chr c) r) .eps

/-- Alternation of several literal strings, with the leftmost branch first. -/
def altStrs (ws : List String) : Regex Char :=
  ws.foldr (fun w r => .alt (reOfString w) r) .emp

/-- One place-value slot of the source pattern:
`((|d1|…|dk)P)?` — an optional digit alternative followed by the
place word, the whole slot optional. -/
def slotC (ds : List String) (p : String) : Regex Char :=
  .alt .eps (.cat (.alt .eps (altStrs ds)) (reOfString p))

/-- The trailing unit-digit slot of the source pattern: `(|d1|…|dk)?`. -/
def unitC (ds : List String) : Regex Char :=
  .alt .eps (.alt .eps (altStrs ds))

/-- Digit words allowed before แสน/หมื่น/พัน/ร้อย in the source pattern. -/
def digitsNine : List String :=
  ["หนึ่ง", "สอง", "สาม", "สี่", "ห้า", "หก", "เจ็ด", "แปด", "เก้า"]

/-- Digit words allowed before สิบ in the source pattern (ยี่ replaces สอง). -/
def digitsTens : List String :=
  ["หนึ่ง", "ยี่", "สาม", "สี่", "ห้า", "หก", "เจ็ด", "แปด", "เก้า"]

/-- Digit words allowed in the unit position in the source pattern
(both หนึ่ง and เอ็ด denote 1). -/
def digitsUnit : List String :=
  ["หนึ่ง", "เอ็ด", "สอง", "สาม", "สี่", "ห้า", "หก", "เจ็ด", "แปด", "เก้า"]

/-- One group of the source pattern: descending place-value slots
แสน หมื่น พัน ร้อย สิบ followed by an optional unit digit. -/
def thaiGroupC : Regex Char :=
  .cat (slotC digitsNine "แสน")
    (.cat (slotC digitsNine "หมื่น")
      (.cat (slotC digitsNine "พัน")
        (.cat (slotC digitsNine "ร้อย")
          (.cat (slotC digitsTens "สิบ") (unitC digitsUnit)))))

/-- The validation pattern `_re_thai_numerals` of the source: zero or
more groups each terminated by ล้าน, then one trailing group. -/
def _re_thai_numerals : Regex Char :=
  .cat (.star (.cat thaiGroupC (reOfString "ล้าน"))) thaiGroupC

/-- Token-level alternation of several one-token literals. -/
def altToks (ws : List String) : Regex String :=
  ws.foldr (fun w r => .alt (.chr w) r) .emp

/-- Token-level image of one place-value slot. -/
def slotT (ds : List String) (p : String) : Regex String :=
  .alt .eps (.cat (.alt .eps (altToks ds)) (.chr p))

/-- Token-level image of the trailing unit-digit slot. -/
def unitT (ds : List String) : Regex String :=
  .alt .eps (.alt .eps (altToks ds))

/-- Token-level image of one group of the source pattern. -/
def thaiGroupT : Regex String :=
  .cat (slotT digitsNine "แสน")
    (.cat (slotT digitsNine "หมื่น")
      (.cat (slotT digitsNine "พัน")
        (.cat (slotT digitsNine "ร้อย")
          (.cat (slotT digitsTens "สิบ") (unitT digitsUnit)))))

/-- Token-level image of the whole validation pattern. -/
def reThaiTok : Regex String :=
  .cat (.star (.cat thaiGroupT (.chr "ล้าน"))) thaiGroupT

/-- Flattening a token-level expression to a character-level one:
every one-token literal becomes the literal of its characters. -/
def flat : Regex String → Regex Char
  | .emp => .emp
  | .eps => .eps
  | .chr t => reOfString t
  | .alt r1 r2 => .alt (flat r1) (flat r2)
  | .cat r1 r2 => .cat (flat r1) (flat r2)
  | .star r => .star (flat r)

/-- The characters of a token sequence, concatenated. -/
def strOfToks (toks : List String) : List Char :=
  toks.foldr (fun t acc => t.data ++ acc) []

/-- The digit table `_digits` of the source (ศูนย์ excluded there as a
special case). -/
def _digits : List (String × Int) :=
  [("หนึ่ง", 1), ("เอ็ด", 1), ("สอง", 2), ("ยี่", 2), ("สาม", 3),
   ("สี่", 4), ("ห้า", 5), ("หก", 6), ("เจ็ด", 7), ("แปด", 8), ("เก้า", 9)]

/-- The place-value table `_powers_of_10` of the source (ล้าน excluded
there as a special case). -/
def _powers_of_10 : List (String × Int) :=
  [("สิบ", 10), ("ร้อย", 100), ("พัน", 1000), ("หมื่น", 10000), ("แสน", 100000)]

/-- The tokenizer vocabulary `_valid_tokens` of the source: all digit
words, all place words and the million word. -/
def _valid_tokens : List String :=
  _digits.map (·.1) ++ _powers_of_10.map (·.1) ++ ["ล้าน"]

/-- The place-multiplier words, in the order of `_powers_of_10`. -/
def powKeys : List String :=
  _powers_of_10.map (·.1)

/-- The multiplier a place word maps to (0 for non-place words). -/
def multOf (t : String) : Int :=
  (_powers_of_10.lookup t).getD 0

/-- Is the token found in the digit table? -/
def isDigitTok (t : String) : Bool :=
  (_digits.lookup t).isSome

/-- Is the token found in the place-value table? -/
def isPowTok (t : String) : Bool :=
  (_powers_of_10.lookup t).isSome

/-- Keep the longer of a candidate token and the best one found so far. -/
def pickLonger : Option String → String → Option String
  | none, t => some t
  | some b, t => if b.data.length < t.data.length then some t else some b

/-- The longest vocabulary word that is a character-prefix of the rest of
the input, if any. -/
def tokenPrefixAt (cs : List Char) : Option String :=
  (_valid_tokens.filter (fun t => t.data.isPrefixOf cs)).foldl pickLonger none

/-- Modelled from the spec: the collaborator tokenizer
(`pythainlp.tokenize.Tokenizer` built over `_valid_tokens`, which is not
part of this unit) segments the input greedily by longest vocabulary
match, producing tokens that exactly cover the input; `none` when some
rest of the input starts with no vocabulary word.  Fuel is the input
length; every vocabulary word is nonempty, so the fuel never runs out. -/
def tokenizeAux (fuel : Nat) (cs : List Char) : Option (List String) :=
  if cs = [] then some []
  else
    match fuel with
    | 0 => none
    | fuel' + 1 =>
      match tokenPrefixAt cs with
      | none => none
      | some t => (tokenizeAux fuel' (cs.drop t.data.length)).map (t :: ·)

/-- Modelled from the spec: `word_tokenize` of the collaborator tokenizer. -/
def word_tokenize (w : String) : Option (List String) :=
  tokenizeAux w.data.length w.data

/-- One step of the accumulation loop in `thaiword_to_num`: a digit word
replaces the pending digit; a place word adds `max(pending, 1)` times
its multiplier and clears the pending digit; any other token is the
million word, which multiplies the whole accumulated amount. -/
def accumStep (st : Int × Int) (token : String) : Int × Int :=
  match _digits.lookup token with
  | some d => (st.1, d)
  | none =>
    match _powers_of_10.lookup token with
    | some m => (st.1 + max st.2 1 * m, 0)
    | none => ((st.1 + st.2) * 1000000, 0)

/-- The accumulation loop of `thaiword_to_num`: fold the steps from
`accumulated = 0`, `next_digit = 1`, then add the trailing digit. -/
def accumulate (toks : List String) : Int :=
  let st := toks.foldl accumStep (0, 1)
  st.1 + st.2

/-- `accumStep` with the defensive `max(pending, 1)` replaced by the bare
pending digit, for probing whether the guard can change a result. -/
def accumStepNoMax (st : Int × Int) (token : String) : Int × Int :=
  match _digits.lookup token with
  | some d => (st.1, d)
  | none =>
    match _powers_of_10.lookup token with
    | some m => (st.1 + st.2 * m, 0)
    | none => ((st.1 + st.2) * 1000000, 0)

/-- `accumulate` built on the guard-free step. -/
def accumulateNoMax (toks : List String) : Int :=
  let st := toks.foldl accumStepNoMax (0, 1)
  st.1 + st.2

/-- The Python call argument: a string, or a value of any other type. -/
inductive PyInput where
  | str (w : String) : PyInput
  | nonStr : PyInput

/-- The two error kinds raised by `thaiword_to_num`. -/
inductive NumError where
  | typeError : NumError
  | valueError : NumError
deriving DecidableEq

/-- The function `thaiword_to_num` of `pythainlp/util/wordtonum.py`:
type check, empty check, the ศูนย์ special case, full-match validation
against `_re_thai_numerals`, then tokenization and accumulation. -/
def thaiword_to_num : PyInput → Except NumError Int
  | .nonStr => .error .typeError
  | .str w =>
    if w = "" then .error .valueError
    else if w = "ศูนย์" then .ok 0
    else if Regex.matchL _re_thai_numerals w.data then
      match word_tokenize w with
      | some toks => .ok (accumulate toks)
      | none => .error .valueError
    else .error .valueError

/-- `thaiword_to_num` with the guard-free accumulation, for probing the
`max(pending, 1)` guard. -/
def thaiword_to_num_nomax : PyInput → Except NumError Int
  | .nonStr => .error .typeError
  | .str w =>
    if w = "" then .error .valueError
    else if w = "ศูนย์" then .ok 0
    else if Regex.matchL _re_thai_numerals w.data then
      match word_tokenize w with
      | some toks => .ok (accumulateNoMax toks)
      | none => .error .valueError
    else .error .valueError

/-- The accumulator scan exactly as the design document words it: the
million token folds everything accumulated into a ×1,000,000; a digit
token overwrites the pending digit; a place-multiplier token adds
`max(pending, 1)` times its multiplier and clears the pending digit;
tokens of no kind (which the upstream never produces) leave the state
alone. -/
def specStep (st : Int × Int) (token : String) : Int × Int :=
  if token = "ล้าน" then ((st.1 + st.2) * 1000000, 0)
  else
    match _digits.lookup token with
    | some d => (st.1, d)
    | none =>
      match _powers_of_10.lookup token with
      | some m => (st.1 + max st.2 1 * m, 0)
      | none => st

/-- The whole scan of the design document: start from `total = 0`,
`pending = 1`, fold `specStep`, then add the remaining pending digit. -/
def specScan (toks : List String) : Int :=
  let st := toks.foldl specStep (0, 1)
  st.1 + st.2

/-- Token lists matched by one place-value slot: nothing, the place word
alone, or one digit word followed by the place word. -/
def SlotP (ds : List String) (p : String) (ts : List String) : Prop :=
  ts = [] ∨ ts = [p] ∨ ∃ d ∈ ds, ts = [d, p]

/-- Token lists matched by the unit-digit slot: nothing or one digit word. -/
def UnitP (ds : List String) (ts : List String) : Prop :=
  ts = [] ∨ ∃ d ∈ ds, ts = [d]

/-- Token lists matched by one group of the pattern. -/
def GroupP (g : List String) : Prop :=
  ∃ t1 t2 t3 t4 t5 t6, g = t1 ++ t2 ++ t3 ++ t4 ++ t5 ++ t6 ∧
    SlotP digitsNine "แสน" t1 ∧ SlotP digitsNine "หมื่น" t2 ∧
    SlotP digitsNine "พัน" t3 ∧ SlotP digitsNine "ร้อย" t4 ∧
    SlotP digitsTens "สิบ" t5 ∧ UnitP digitsUnit t6

/-- Token sequences matched by the whole pattern: zero or more groups
each closed by the million word, then one trailing group. -/
inductive SeqP : List String → Prop where
  | last {g : List String} : GroupP g → SeqP g
  | more {g rest : List String} :
      GroupP g → SeqP rest → SeqP (g ++ "ล้าน" :: rest)

/-- Within a token list, every place-multiplier token is immediately
preceded by a digit token, the first token excepted. -/
def guardSafeFrom : String → List String → Bool
  | _, [] => true
  | prev, t :: rest => (!(isPowTok t) || isDigitTok prev) && guardSafeFrom t rest

/-- Every place-multiplier token of the list is immediately preceded by
a digit token (the first token is unconstrained, the initial pending
digit being 1). -/
def guardSafe : List String → Bool
  | [] => true
  | t :: rest => guardSafeFrom t rest

namespace Regex

theorem nullable_matches {α : Type} {r : Regex α} (h : nullable r = true) :
    Matches r [] := by
  induction r with
  | emp => simp [nullable] at h
  | eps => exact .eps
  | chr a => simp [nullable] at h
  | alt r1 r2 ih1 ih2 =>
    simp only [nullable, Bool.or_eq_true] at h
    rcases h with h | h
    · exact .altL (ih1 h)
    · exact .altR (ih2 h)
  | cat r1 r2 ih1 ih2 =>
    simp only [nullable, Bool.and_eq_true] at h
    exact Matches.cat (ih1 h.1) (ih2 h.2)
  | star r _ => exact .starNil

theorem altS_matches {α : Type} {r1 r2 : Regex α} {s : List α}
    (h : Matches (altS r1 r2) s) : Matches (.alt r1 r2) s := by
  cases r1 <;> cases r2 <;>
    first
      | exact Matches.altL h
      | exact Matches.altR h
      | exact h

theorem catS_matches {α : Type} {r1 r2 : Regex α} {s : List α}
    (h : Matches (catS r1 r2) s) : Matches (.cat r1 r2) s := by
  cases r1 <;> cases r2 <;>
    first
      | exact h
      | exact Matches.cat Matches.eps h
      | exact (by simpa using Matches.cat h Matches.eps)
      | cases h

theorem deriv_matches {α : Type} [DecidableEq α] {r : Regex α} {c : α}
    {s : List α} (h : Matches (deriv r c) s) : Matches r (c :: s) := by
  induction r generalizing s with
  | emp => cases h
  | eps => cases h
  | chr a =>
    by_cases hac : a = c
    · subst hac
      simp only [deriv, if_pos rfl] at h
      cases h
      exact Matches.chr a
    · simp only [deriv, if_neg hac] at h
      cases h
  | alt r1 r2 ih1 ih2 =>
    cases altS_matches h with
    | altL h1 => exact Matches.altL (ih1 h1)
    | altR h2 => exact Matches.altR (ih2 h2)
  | cat r1 r2 ih1 ih2 =>
    cases altS_matches h with
    | altL h1 =>
      cases catS_matches h1 with
      | cat ha hb => exact Matches.cat (ih1 ha) hb
    | altR h2 =>
      by_cases hn : nullable r1 = true
      · rw [if_pos hn] at h2
        exact Matches.cat (nullable_matches hn) (ih2 h2)
      · rw [if_neg hn] at h2
        cases h2
  | star r ih =>
    cases catS_matches h with
    | cat ha hb => exact Matches.starCons (ih ha) hb

theorem matchL_matches {α : Type} [DecidableEq α] :
    ∀ (xs : List α) (r : Regex α), matchL r xs = true → Matches r xs := by
  intro xs
  induction xs with
  | nil => exact fun r h => nullable_matches h
  | cons x xs ih => exact fun r h => deriv_matches (ih (deriv r x) h)

theorem matches_mem_atoms {α : Type} {r : Regex α} {s : List α}
    (h : Matches r s) : ∀ x ∈ s, x ∈ atoms r := by
  induction h with
  | eps => intro x hx; cases hx
  | chr a => intro x hx; exact hx
  | altL h1 ih =>
    intro x hx
    exact List.mem_append.2 (Or.inl (ih x hx))
  | altR h2 ih =>
    intro x hx
    exact List.mem_append.2 (Or.inr (ih x hx))
  | cat h1 h2 ih1 ih2 =>
    intro x hx
    rcases List.mem_append.1 hx with hx | hx
    · exact List.mem_append.2 (Or.inl (ih1 x hx))
    · exact List.mem_append.2 (Or.inr (ih2 x hx))
  | starNil => intro x hx; cases hx
  | starCons h1 h2 ih1 ih2 =>
    intro x hx
    rcases List.mem_append.1 hx with hx | hx
    · exact ih1 x hx
    · exact ih2 x hx

end Regex

theorem foldr_lit_matches : ∀ (cs : List Char) (s : List Char),
    Regex.Matches (cs.foldr (fun c r => .cat (.chr c) r) .eps) s → s = cs := by
  intro cs
  induction cs with
  | nil =>
    intro s h
    cases h
    rfl
  | cons c cs ih =>
    intro s h
    cases h with
    | cat h1 h2 =>
      cases h1
      rw [ih _ h2]
      rfl

theorem reOfString_matches {t : String} {s : List Char}
    (h : Regex.Matches (reOfString t) s) : s = t.data :=
  foldr_lit_matches t.data s h

theorem reOfString_shape (t : String) :
    reOfString t = .eps ∨ ∃ c r, reOfString t = .cat (.chr c) r := by
  cases ht : t.data with
  | nil =>
    left
    rw [reOfString, ht]
    rfl
  | cons c cs =>
    right
    refine ⟨c, cs.foldr (fun c r => .cat (.chr c) r) .eps, ?_⟩
    rw [reOfString, ht]
    rfl

theorem strOfToks_append (a b : List String) :
    strOfToks (a ++ b) = strOfToks a ++ strOfToks b := by
  induction a with
  | nil => rfl
  | cons t a ih =>
    show t.data ++ strOfToks (a ++ b) = t.data ++ strOfToks a ++ strOfToks b
    rw [ih, List.append_assoc]

theorem flat_matches_aux {rc : Regex Char} {s : List Char}
    (h : Regex.Matches rc s) :
    ∀ rt : Regex String, rc = flat rt →
      ∃ toks, Regex.Matches rt toks ∧ s = strOfToks toks := by
  induction h with
  | eps =>
    intro rt he
    cases rt with
    | eps => exact ⟨[], .eps, rfl⟩
    | chr t =>
      rcases reOfString_shape t with hsh | ⟨c, r0, hsh⟩
      · refine ⟨[t], .chr t, ?_⟩
        have : t.data = [] := by
          cases htd : t.data with
          | nil => rfl
          | cons c cs => rw [reOfString, htd] at hsh; exact Regex.noConfusion hsh
        simp [strOfToks, this]
      · rw [flat, hsh] at he
        exact Regex.noConfusion he
    | emp => exact Regex.noConfusion he
    | alt r1 r2 => exact Regex.noConfusion he
    | cat r1 r2 => exact Regex.noConfusion he
    | star r0 => exact Regex.noConfusion he
  | chr a =>
    intro rt he
    cases rt with
    | chr t =>
      rcases reOfString_shape t with hsh | ⟨c, r0, hsh⟩ <;>
        rw [flat, hsh] at he <;> exact Regex.noConfusion he
    | emp => exact Regex.noConfusion he
    | eps => exact Regex.noConfusion he
    | alt r1 r2 => exact Regex.noConfusion he
    | cat r1 r2 => exact Regex.noConfusion he
    | star r0 => exact Regex.noConfusion he
  | altL h1 ih =>
    intro rt he
    cases rt with
    | chr t =>
      rcases reOfString_shape t with hsh | ⟨c, r0, hsh⟩ <;>
        rw [flat, hsh] at he <;> exact Regex.noConfusion he
    | alt r1 r2 =>
      injection he with he1 he2
      obtain ⟨toks, hm, hs⟩ := ih r1 he1
      exact ⟨toks, .altL hm, hs⟩
    | emp => exact Regex.noConfusion he
    | eps => exact Regex.noConfusion he
    | cat r1 r2 => exact Regex.noConfusion he
    | star r0 => exact Regex.noConfusion he
  | altR h2 ih =>
    intro rt he
    cases rt with
    | chr t =>
      rcases reOfString_shape t with hsh | ⟨c, r0, hsh⟩ <;>
        rw [flat, hsh] at he <;> exact Regex.noConfusion he
    | alt r1 r2 =>
      injection he with he1 he2
      obtain ⟨toks, hm, hs⟩ := ih r2 he2
      exact ⟨toks, .altR hm, hs⟩
    | emp => exact Regex.noConfusion he
    | eps => exact Regex.noConfusion he
    | cat r1 r2 => exact Regex.noConfusion he
    | star r0 => exact Regex.noConfusion he
  | @cat r1c r2c s1 s2 h1 h2 ih1 ih2 =>
    intro rt he
    cases rt with
    | chr t =>
      refine ⟨[t], .chr t, ?_⟩
      have hm : Regex.Matches (reOfString t) (s1 ++ s2) := by
        rw [flat] at he
        exact he ▸ Regex.Matches.cat h1 h2
      have hd := reOfString_matches hm
      simp [strOfToks, ← hd]
    | cat r1 r2 =>
      injection he with he1 he2
      obtain ⟨toks1, hm1, hs1⟩ := ih1 r1 he1
      obtain ⟨toks2, hm2, hs2⟩ := ih2 r2 he2
      exact ⟨toks1 ++ toks2, .cat hm1 hm2,
        by rw [hs1, hs2, strOfToks_append]⟩
    | emp => exact Regex.noConfusion he
    | eps => exact Regex.noConfusion he
    | alt r1 r2 => exact Regex.noConfusion he
    | star r0 => exact Regex.noConfusion he
  | starNil =>
    intro rt he
    cases rt with
    | chr t =>
      rcases reOfString_shape t with hsh | ⟨c, r0, hsh⟩ <;>
        rw [flat, hsh] at he <;> exact Regex.noConfusion he
    | star r0 => exact ⟨[], .starNil, rfl⟩
    | emp => exact Regex.noConfusion he
    | eps => exact Regex.noConfusion he
    | alt r1 r2 => exact Regex.noConfusion he
    | cat r1 r2 => exact Regex.noConfusion he
  | starCons h1 h2 ih1 ih2 =>
    intro rt he
    cases rt with
    | chr t =>
      rcases reOfString_shape t with hsh | ⟨c, r0, hsh⟩ <;>
        rw [flat, hsh] at he <;> exact Regex.noConfusion he
    | star r0 =>
      injection he with he0
      obtain ⟨toks1, hm1, hs1⟩ := ih1 r0 he0
      obtain ⟨toks2, hm2, hs2⟩ := ih2 (.star r0) (by rw [flat, he0])
      exact ⟨toks1 ++ toks2, .starCons hm1 hm2,
        by rw [hs1, hs2, strOfToks_append]⟩
    | emp => exact Regex.noConfusion he
    | eps => exact Regex.noConfusion he
    | alt r1 r2 => exact Regex.noConfusion he
    | cat r1 r2 => exact Regex.noConfusion he

theorem flat_reThaiTok : flat reThaiTok = _re_thai_numerals := rfl

theorem matches_re_tokens {s : List Char}
    (h : Regex.Matches _re_thai_numerals s) :
    ∃ toks, Regex.Matches reThaiTok toks ∧ s = strOfToks toks :=
  flat_matches_aux h reThaiTok flat_reThaiTok.symm

theorem pickLonger_eq {acc : Option String} {t u : String}
    (h : pickLonger acc t = some u) : u = t ∨ acc = some u := by
  cases acc with
  | none =>
    injection h with h
    exact Or.inl h.symm
  | some b =>
    simp only [pickLonger] at h
    by_cases hlen : b.data.length < t.data.length
    · rw [if_pos hlen] at h
      injection h with h
      exact Or.inl h.symm
    · rw [if_neg hlen] at h
      exact Or.inr h

theorem foldl_pickLonger_mem :
    ∀ (l : List String) (acc : Option String) (u : String),
      l.foldl pickLonger acc = some u → u ∈ l ∨ acc = some u := by
  intro l
  induction l with
  | nil => exact fun acc u h => Or.inr h
  | cons t l ih =>
    intro acc u h
    rcases ih (pickLonger acc t) u h with hm | he
    · exact Or.inl (List.mem_cons_of_mem _ hm)
    · rcases pickLonger_eq he with rfl | ha
      · exact Or.inl (List.mem_cons_self u l)
      · exact Or.inr ha

theorem pickLonger_some (b t : String) :
    pickLonger (some b) t =
      some (if b.data.length < t.data.length then t else b) := by
  simp only [pickLonger]
  by_cases hlen : b.data.length < t.data.length
  · rw [if_pos hlen, if_pos hlen]
  · rw [if_neg hlen, if_neg hlen]

theorem foldl_pickLonger_isSome :
    ∀ (l : List String) (b : String),
      (l.foldl pickLonger (some b)).isSome = true := by
  intro l
  induction l with
  | nil => intro b; rfl
  | cons t l ih =>
    intro b
    show (List.foldl pickLonger (pickLonger (some b) t) l).isSome = true
    rw [pickLonger_some]
    exact ih _

theorem foldl_pickLonger_ne_none {l : List String} (hne : l ≠ []) :
    (l.foldl pickLonger none).isSome = true := by
  cases l with
  | nil => exact absurd rfl hne
  | cons x l' =>
    show (List.foldl pickLonger (pickLonger none x) l').isSome = true
    exact foldl_pickLonger_isSome l' x

theorem tokenPrefixAt_sound {cs : List Char} {t : String}
    (h : tokenPrefixAt cs = some t) :
    t ∈ _valid_tokens ∧ t.data.isPrefixOf cs = true := by
  rcases foldl_pickLonger_mem _ none t h with hm | he
  · have hmf := List.mem_filter.1 hm
    exact ⟨hmf.1, hmf.2⟩
  · exact Option.noConfusion he

theorem tokenPrefixAt_complete {cs : List Char} {t : String}
    (hmem : t ∈ _valid_tokens) (hpre : t.data.isPrefixOf cs = true) :
    (tokenPrefixAt cs).isSome = true := by
  have hf : t ∈ _valid_tokens.filter (fun u => u.data.isPrefixOf cs) :=
    List.mem_filter.2 ⟨hmem, hpre⟩
  exact foldl_pickLonger_ne_none (List.ne_nil_of_mem hf)

theorem vocab_prefix_code : ∀ t ∈ _valid_tokens, ∀ u ∈ _valid_tokens,
    t.data.isPrefixOf u.data = true → t = u := by decide

theorem vocab_ne_nil : ∀ t ∈ _valid_tokens, t.data ≠ [] := by decide

theorem tokenPrefixAt_append {t : String} (hmem : t ∈ _valid_tokens)
    (rest : List Char) : tokenPrefixAt (t.data ++ rest) = some t := by
  have hpre : t.data.isPrefixOf (t.data ++ rest) = true :=
    List.isPrefixOf_iff_prefix.2 ( List.prefix_append _ _)
  have hs := tokenPrefixAt_complete hmem hpre
  cases hu : tokenPrefixAt (t.data ++ rest) with
  | none => rw [hu] at hs; simp at hs
  | some u =>
    obtain ⟨humem, hupre⟩ := tokenPrefixAt_sound hu
    have h1 : u.data <+: t.data ++ rest := List.isPrefixOf_iff_prefix.1 hupre
    have h2 : t.data <+: t.data ++ rest := List.prefix_append _ _
    rcases List.prefix_or_prefix_of_prefix h1 h2 with hp | hp
    · rw [vocab_prefix_code u humem t hmem ( List.isPrefixOf_iff_prefix.2 hp)]
    · rw [vocab_prefix_code t hmem u humem ( List.isPrefixOf_iff_prefix.2 hp)]

theorem tokenizeAux_strOfToks :
    ∀ (toks : List String), (∀ t ∈ toks, t ∈ _valid_tokens) →
    ∀ fuel, (strOfToks toks).length ≤ fuel →
      tokenizeAux fuel (strOfToks toks) = some toks := by
  intro toks
  induction toks with
  | nil =>
    intro _ fuel _
    show tokenizeAux fuel [] = some []
    rw [tokenizeAux.eq_def, if_pos rfl]
  | cons t toks ih =>
    intro hv fuel hlen
    have htv : t ∈ _valid_tokens := hv t (List.mem_cons_self t toks)
    have hrest : ∀ u ∈ toks, u ∈ _valid_tokens :=
      fun u hu => hv u (List.mem_cons_of_mem _ hu)
    have hne : t.data ≠ [] := vocab_ne_nil t htv
    have hcs : strOfToks (t :: toks) = t.data ++ strOfToks toks := rfl
    have hlen1 : 1 ≤ t.data.length := by
      cases htd : t.data with
      | nil => exact absurd htd hne
      | cons c cs => simp
    have hlen' : (strOfToks toks).length + 1 ≤ fuel := by
      rw [hcs, List.length_append] at hlen
      omega
    cases fuel with
    | zero => omega
    | succ fuel =>
      rw [hcs, tokenizeAux.eq_def,
        if_neg (List.append_ne_nil_of_left_ne_nil hne _),
        tokenPrefixAt_append htv]
      show Option.map (fun x => t :: x)
          (tokenizeAux fuel (List.drop t.data.length (t.data ++ strOfToks toks))) =
        some (t :: toks)
      rw [List.drop_left, ih hrest fuel (by omega)]
      rfl

theorem tokenizeAux_mem_vocab :
    ∀ (fuel : Nat) (cs : List Char) (toks : List String),
      tokenizeAux fuel cs = some toks → ∀ t ∈ toks, t ∈ _valid_tokens := by
  intro fuel
  induction fuel with
  | zero =>
    intro cs toks h t ht
    by_cases hcs : cs = []
    · rw [tokenizeAux.eq_def, if_pos hcs] at h
      injection h with h
      subst h
      cases ht
    · rw [tokenizeAux.eq_def, if_neg hcs] at h
      exact Option.noConfusion h
  | succ fuel ih =>
    intro cs toks h t ht
    by_cases hcs : cs = []
    · rw [tokenizeAux.eq_def, if_pos hcs] at h
      injection h with h
      subst h
      cases ht
    · rw [tokenizeAux.eq_def, if_neg hcs] at h
      cases hp : tokenPrefixAt cs with
      | none => rw [hp] at h; exact Option.noConfusion h
      | some u =>
        rw [hp] at h
        have h' : Option.map (fun x => u :: x)
            (tokenizeAux fuel (cs.drop u.data.length)) = some toks := h
        cases hrec : tokenizeAux fuel (cs.drop u.data.length) with
        | none => rw [hrec] at h'; exact Option.noConfusion h'
        | some toks' =>
          rw [hrec] at h'
          injection h' with h'
          subst h'
          rcases List.mem_cons.1 ht with rfl | ht'
          · exact (tokenPrefixAt_sound hp).1
          · exact ih _ _ hrec t ht'

theorem altToks_matches :
    ∀ (ws : List String) {toks : List String},
      Regex.Matches (altToks ws) toks → ∃ w ∈ ws, toks = [w] := by
  intro ws
  induction ws with
  | nil => intro toks h; cases h
  | cons w ws ih =>
    intro toks h
    cases h with
    | altL h1 =>
      cases h1
      exact ⟨w, List.mem_cons_self w ws, rfl⟩
    | altR h2 =>
      obtain ⟨u, hu, ht⟩ := ih h2
      exact ⟨u, List.mem_cons_of_mem _ hu, ht⟩

theorem slotT_matches {ds : List String} {p : String} {ts : List String}
    (h : Regex.Matches (slotT ds p) ts) : SlotP ds p ts := by
  cases h with
  | altL h1 =>
    cases h1
    exact Or.inl rfl
  | altR h2 =>
    cases h2 with
    | cat ha hb =>
      cases hb
      cases ha with
      | altL he =>
        cases he
        exact Or.inr (Or.inl rfl)
      | altR hd =>
        obtain ⟨d, hdm, rfl⟩ := altToks_matches ds hd
        exact Or.inr (Or.inr ⟨d, hdm, rfl⟩)

theorem unitT_matches {ds : List String} {ts : List String}
    (h : Regex.Matches (unitT ds) ts) : UnitP ds ts := by
  cases h with
  | altL h1 =>
    cases h1
    exact Or.inl rfl
  | altR h2 =>
    cases h2 with
    | altL h1 =>
      cases h1
      exact Or.inl rfl
    | altR hd =>
      obtain ⟨d, hdm, rfl⟩ := altToks_matches ds hd
      exact Or.inr ⟨d, hdm, rfl⟩

theorem thaiGroupT_matches {g : List String}
    (h : Regex.Matches thaiGroupT g) : GroupP g := by
  cases h with
  | cat h1 hrest =>
    cases hrest with
    | cat h2 hrest =>
      cases hrest with
      | cat h3 hrest =>
        cases hrest with
        | cat h4 hrest =>
          cases hrest with
          | cat h5 h6 =>
            exact ⟨_, _, _, _, _, _, by simp [List.append_assoc],
              slotT_matches h1, slotT_matches h2, slotT_matches h3,
              slotT_matches h4, slotT_matches h5, unitT_matches h6⟩

theorem star_matches_aux {r : Regex String} {u : List String}
    (h : Regex.Matches r u) :
    r = .star (.cat thaiGroupT (.chr "ล้าน")) →
    ∀ v, SeqP v → SeqP (u ++ v) := by
  induction h with
  | eps => intro hr; exact Regex.noConfusion hr
  | chr a => intro hr; exact Regex.noConfusion hr
  | altL h1 ih => intro hr; exact Regex.noConfusion hr
  | altR h2 ih => intro hr; exact Regex.noConfusion hr
  | cat h1 h2 ih1 ih2 => intro hr; exact Regex.noConfusion hr
  | starNil => intro _ v hv; exact hv
  | @starCons r0 s1 s2 h1 h2 ih1 ih2 =>
    intro hr v hv
    injection hr with hr0
    subst hr0
    cases h1 with
    | @cat _ _ sg sl hg hl =>
      cases hl
      have hgp := thaiGroupT_matches hg
      have hrec := ih2 rfl v hv
      have hfull : SeqP (sg ++ "ล้าน" :: (s2 ++ v)) := SeqP.more hgp hrec
      simpa [List.append_assoc] using hfull

theorem reThaiTok_seqP {toks : List String}
    (h : Regex.Matches reThaiTok toks) : SeqP toks := by
  cases h with
  | cat hstar hgrp =>
    exact star_matches_aux hstar rfl _ (SeqP.last (thaiGroupT_matches hgrp))

theorem atoms_reThaiTok_sub : ∀ t ∈ Regex.atoms reThaiTok, t ∈ _valid_tokens := by
  decide

theorem match_tokenize {w : String}
    (hm : Regex.matchL _re_thai_numerals w.data = true) :
    ∃ toks, word_tokenize w = some toks ∧ w.data = strOfToks toks ∧
      SeqP toks ∧ (∀ t ∈ toks, t ∈ _valid_tokens) := by
  have hM := Regex.matchL_matches w.data _ hm
  obtain ⟨toks, hmt, hs⟩ := matches_re_tokens hM
  have hvocab : ∀ t ∈ toks, t ∈ _valid_tokens := fun t ht =>
    atoms_reThaiTok_sub t (Regex.matches_mem_atoms hmt t ht)
  refine ⟨toks, ?_, hs, reThaiTok_seqP hmt, hvocab⟩
  show tokenizeAux w.data.length w.data = some toks
  rw [hs]
  exact tokenizeAux_strOfToks toks hvocab _ le_rfl

theorem lookup_mem {tbl : List (String × Int)} :
    ∀ {t : String} {v : Int}, tbl.lookup t = some v → (t, v) ∈ tbl := by
  induction tbl with
  | nil => intro t v h; exact Option.noConfusion h
  | cons p tbl ih =>
    intro t v h
    obtain ⟨k, b⟩ := p
    rw [List.lookup_cons] at h
    cases htk : (t == k) <;> rw [htk] at h
    · exact List.mem_cons_of_mem _ (ih h)
    · injection h with h
      have hk : t = k := by simpa using htk
      subst hk
      subst h
      exact List.mem_cons_self _ _

theorem digits_lookup_bound {t : String} {d : Int}
    (h : _digits.lookup t = some d) : 1 ≤ d ∧ d ≤ 9 := by
  have hm := lookup_mem h
  have hall : ∀ p ∈ _digits, 1 ≤ p.2 ∧ p.2 ≤ 9 := by decide
  exact hall _ hm

theorem pows_lookup_bound {t : String} {m : Int}
    (h : _powers_of_10.lookup t = some m) : 10 ≤ m := by
  have hm := lookup_mem h
  have hall : ∀ p ∈ _powers_of_10, 10 ≤ p.2 := by decide
  exact hall _ hm

theorem accumStep_digit {st : Int × Int} {t : String} {d : Int}
    (hd : _digits.lookup t = some d) : accumStep st t = (st.1, d) := by
  simp only [accumStep]
  rw [hd]

theorem accumStep_pow {st : Int × Int} {t : String} {m : Int}
    (hd : _digits.lookup t = none) (hp : _powers_of_10.lookup t = some m) :
    accumStep st t = (st.1 + max st.2 1 * m, 0) := by
  simp only [accumStep]
  rw [hd, hp]

theorem accumStep_million {st : Int × Int} {t : String}
    (hd : _digits.lookup t = none) (hp : _powers_of_10.lookup t = none) :
    accumStep st t = ((st.1 + st.2) * 1000000, 0) := by
  simp only [accumStep]
  rw [hd, hp]

theorem accumStepNoMax_digit {st : Int × Int} {t : String} {d : Int}
    (hd : _digits.lookup t = some d) : accumStepNoMax st t = (st.1, d) := by
  simp only [accumStepNoMax]
  rw [hd]

theorem accumStepNoMax_pow {st : Int × Int} {t : String} {m : Int}
    (hd : _digits.lookup t = none) (hp : _powers_of_10.lookup t = some m) :
    accumStepNoMax st t = (st.1 + st.2 * m, 0) := by
  simp only [accumStepNoMax]
  rw [hd, hp]

theorem accumStepNoMax_million {st : Int × Int} {t : String}
    (hd : _digits.lookup t = none) (hp : _powers_of_10.lookup t = none) :
    accumStepNoMax st t = ((st.1 + st.2) * 1000000, 0) := by
  simp only [accumStepNoMax]
  rw [hd, hp]

theorem accumStep_inv {st : Int × Int} {t : String}
    (h1 : 0 ≤ st.1) (_h2 : 0 ≤ st.2) (h3 : 1 ≤ st.1 + st.2) :
    0 ≤ (accumStep st t).1 ∧ 0 ≤ (accumStep st t).2 ∧
      1 ≤ (accumStep st t).1 + (accumStep st t).2 := by
  cases hd : _digits.lookup t with
  | some d =>
    rw [accumStep_digit hd]
    have hb := digits_lookup_bound hd
    exact ⟨h1, by omega, by omega⟩
  | none =>
    cases hp : _powers_of_10.lookup t with
    | some m =>
      rw [accumStep_pow hd hp]
      have hm := pows_lookup_bound hp
      have hmax : (1 : Int) ≤ max st.2 1 := le_max_right _ _
      have hmul : (1 : Int) * 10 ≤ max st.2 1 * m :=
        mul_le_mul hmax hm (by norm_num) (by omega)
      refine ⟨by omega, le_refl 0, by omega⟩
    | none =>
      rw [accumStep_million hd hp]
      have hmul : (1 : Int) * 1000000 ≤ (st.1 + st.2) * 1000000 :=
        mul_le_mul_of_nonneg_right h3 (by norm_num)
      refine ⟨by omega, le_refl 0, by omega⟩

theorem foldl_accum_inv :
    ∀ (toks : List String) (st : Int × Int),
      0 ≤ st.1 → 0 ≤ st.2 → 1 ≤ st.1 + st.2 →
      0 ≤ (toks.foldl accumStep st).1 ∧ 0 ≤ (toks.foldl accumStep st).2 ∧
        1 ≤ (toks.foldl accumStep st).1 + (toks.foldl accumStep st).2 := by
  intro toks
  induction toks with
  | nil => exact fun st h1 h2 h3 => ⟨h1, h2, h3⟩
  | cons t toks ih =>
    intro st h1 h2 h3
    obtain ⟨g1, g2, g3⟩ := accumStep_inv (t := t) h1 h2 h3
    exact ih _ g1 g2 g3

theorem accumulate_pos (toks : List String) : 1 ≤ accumulate toks := by
  obtain ⟨g1, g2, g3⟩ :=
    foldl_accum_inv toks (0, 1) (by norm_num) (by norm_num) (by norm_num)
  exact g3

theorem specStep_eq_accumStep {t : String} (h : t ∈ _valid_tokens)
    (st : Int × Int) : specStep st t = accumStep st t := by
  fin_cases h <;> rfl

theorem foldl_spec_eq :
    ∀ (toks : List String), (∀ t ∈ toks, t ∈ _valid_tokens) →
    ∀ st, toks.foldl specStep st = toks.foldl accumStep st := by
  intro toks
  induction toks with
  | nil => intro _ st; rfl
  | cons t toks ih =>
    intro hv st
    show List.foldl specStep (specStep st t) toks =
      List.foldl accumStep (accumStep st t) toks
    rw [specStep_eq_accumStep (hv t (List.mem_cons_self t toks)) st]
    exact ih (fun u hu => hv u (List.mem_cons_of_mem _ hu)) _

theorem specScan_eq_accumulate {toks : List String}
    (hv : ∀ t ∈ toks, t ∈ _valid_tokens) : specScan toks = accumulate toks := by
  show (toks.foldl specStep (0, 1)).1 + (toks.foldl specStep (0, 1)).2 =
    (toks.foldl accumStep (0, 1)).1 + (toks.foldl accumStep (0, 1)).2
  rw [foldl_spec_eq toks hv]

theorem foldl_nomax_eq :
    ∀ (toks : List String) (prev : String) (st : Int × Int),
      guardSafeFrom prev toks = true →
      (∀ t rest, toks = t :: rest → isPowTok t = true → 1 ≤ st.2) →
      toks.foldl accumStepNoMax st = toks.foldl accumStep st := by
  intro toks
  induction toks with
  | nil => intro prev st _ _; rfl
  | cons t toks ih =>
    intro prev st hg hinv
    have hgparts : ((!(isPowTok t) || isDigitTok prev) = true) ∧
        guardSafeFrom t toks = true := by
      simpa only [guardSafeFrom, Bool.and_eq_true] using hg
    have hg' := hgparts.2
    show List.foldl accumStepNoMax (accumStepNoMax st t) toks =
      List.foldl accumStep (accumStep st t) toks
    cases hd : _digits.lookup t with
    | some d =>
      rw [accumStepNoMax_digit hd, ← accumStep_digit hd]
      apply ih t _ hg'
      intro u rest hrest hu
      rw [accumStep_digit hd]
      exact (digits_lookup_bound hd).1
    | none =>
      cases hp : _powers_of_10.lookup t with
      | some m =>
        have hpow : isPowTok t = true := by simp [isPowTok, hp]
        have h2 := hinv t toks rfl hpow
        have hmax : max st.2 1 = st.2 := max_eq_left h2
        rw [accumStepNoMax_pow hd hp]
        rw [show accumStep st t = (st.1 + st.2 * m, 0) by
          rw [accumStep_pow hd hp, hmax]]
        apply ih t _ hg'
        intro u rest hrest hu
        subst hrest
        have hcase : ((!(isPowTok u) || isDigitTok t) = true) := by
          have := hg'
          simp only [guardSafeFrom, Bool.and_eq_true] at this
          exact this.1
        rcases Bool.or_eq_true_iff.1 hcase with hnp | hdig
        · rw [hu] at hnp
          exact absurd hnp (by simp)
        · rw [isDigitTok, hd] at hdig
          exact absurd hdig (by simp)
      | none =>
        rw [accumStepNoMax_million hd hp, ← accumStep_million hd hp]
        apply ih t _ hg'
        intro u rest hrest hu
        subst hrest
        have hcase : ((!(isPowTok u) || isDigitTok t) = true) := by
          have := hg'
          simp only [guardSafeFrom, Bool.and_eq_true] at this
          exact this.1
        rcases Bool.or_eq_true_iff.1 hcase with hnp | hdig
        · rw [hu] at hnp
          exact absurd hnp (by simp)
        · rw [isDigitTok, hd] at hdig
          exact absurd hdig (by simp)

theorem accumulateNoMax_eq {toks : List String}
    (hg : guardSafe toks = true) : accumulateNoMax toks = accumulate toks := by
  cases toks with
  | nil => rfl
  | cons t toks =>
    show (List.foldl accumStepNoMax (accumStepNoMax (0, 1) t) toks).1 +
        (List.foldl accumStepNoMax (accumStepNoMax (0, 1) t) toks).2 =
      (List.foldl accumStep (accumStep (0, 1) t) toks).1 +
        (List.foldl accumStep (accumStep (0, 1) t) toks).2
    have hg' : guardSafeFrom t toks = true := hg
    have hfirst : accumStepNoMax (0, 1) t = accumStep (0, 1) t := by
      cases hd : _digits.lookup t with
      | some d => rw [accumStepNoMax_digit hd, accumStep_digit hd]
      | none =>
        cases hp : _powers_of_10.lookup t with
        | some m => rw [accumStepNoMax_pow hd hp, accumStep_pow hd hp]; norm_num
        | none => rw [accumStepNoMax_million hd hp, accumStep_million hd hp]
    rw [hfirst]
    rw [foldl_nomax_eq toks t (accumStep (0, 1) t) hg' ?side]
    case side =>
      intro u rest hrest hu
      subst hrest
      have hcase : ((!(isPowTok u) || isDigitTok t) = true) := by
        have := hg'
        simp only [guardSafeFrom, Bool.and_eq_true] at this
        exact this.1
      rcases Bool.or_eq_true_iff.1 hcase with hnp | hdig
      · rw [hu] at hnp
        exact absurd hnp (by simp)
      · rw [isDigitTok] at hdig
        cases hd : _digits.lookup t with
        | none => rw [hd] at hdig; exact absurd hdig (by simp)
        | some d =>
          rw [accumStep_digit hd]
          exact (digits_lookup_bound hd).1

theorem digits_none_of_pow {t : String} {m : Int}
    (hp : _powers_of_10.lookup t = some m) : _digits.lookup t = none := by
  cases hd : _digits.lookup t with
  | none => rfl
  | some d =>
    have h1 := lookup_mem hd
    have h2 := lookup_mem hp
    have hdisj : ∀ p ∈ _digits, ∀ q ∈ _powers_of_10, p.1 ≠ q.1 := by decide
    exact absurd rfl (hdisj (t, d) h1 (t, m) h2)

theorem delta_propagates :
    ∀ (toks : List String) (st st' : Int × Int),
      st.2 = st'.2 → 0 ≤ st.2 → st'.1 < st.1 →
      (toks.foldl accumStepNoMax st').1 + (toks.foldl accumStepNoMax st').2 <
        (toks.foldl accumStep st).1 + (toks.foldl accumStep st).2 := by
  intro toks
  induction toks with
  | nil =>
    intro st st' hp h2 hlt
    simp only [List.foldl_nil]
    omega
  | cons t toks ih =>
    intro st st' hp h2 hlt
    rw [List.foldl_cons, List.foldl_cons]
    cases hd : _digits.lookup t with
    | some d =>
      rw [accumStep_digit hd, accumStepNoMax_digit hd]
      have hb := (digits_lookup_bound hd).1
      exact ih (st.1, d) (st'.1, d) rfl (by omega) hlt
    | none =>
      cases hpw : _powers_of_10.lookup t with
      | some m =>
        rw [accumStep_pow hd hpw, accumStepNoMax_pow hd hpw]
        refine ih _ _ rfl le_rfl ?_
        have hm10 := pows_lookup_bound hpw
        have hmax : st.2 * m ≤ max st.2 1 * m :=
          mul_le_mul_of_nonneg_right (le_max_left _ _) (by omega)
        rw [← hp]
        omega
      | none =>
        rw [accumStep_million hd hpw, accumStepNoMax_million hd hpw]
        refine ih _ _ rfl le_rfl ?_
        have hsum : st'.1 + st'.2 < st.1 + st.2 := by omega
        exact mul_lt_mul_of_pos_right hsum (by norm_num)

theorem guard_violation_strict :
    ∀ (toks : List String) (prev : String) (st : Int × Int),
      guardSafeFrom prev toks = false →
      (isDigitTok prev = true → 1 ≤ st.2) →
      (isDigitTok prev = false → st.2 = 0) →
      (toks.foldl accumStepNoMax st).1 + (toks.foldl accumStepNoMax st).2 <
        (toks.foldl accumStep st).1 + (toks.foldl accumStep st).2 := by
  intro toks
  induction toks with
  | nil => intro prev st hg _ _; exact Bool.noConfusion hg
  | cons t toks ih =>
    intro prev st hg hd1 hd0
    rw [List.foldl_cons, List.foldl_cons]
    have hgsplit : ((!(isPowTok t) || isDigitTok prev) &&
        guardSafeFrom t toks) = false := hg
    cases hA : (!(isPowTok t) || isDigitTok prev) with
    | false =>
      -- violation at this very token: t is a place word, prev no digit
      simp only [Bool.or_eq_false_iff, Bool.not_eq_false'] at hA
      have hst2 : st.2 = 0 := hd0 hA.2
      obtain ⟨m, hm⟩ := Option.isSome_iff_exists.1 (by rw [← isPowTok]; exact hA.1)
      have hdn : _digits.lookup t = none := digits_none_of_pow hm
      rw [accumStep_pow hdn hm, accumStepNoMax_pow hdn hm, hst2]
      refine delta_propagates toks _ _ rfl le_rfl ?_
      have hm10 := pows_lookup_bound hm
      norm_num
      omega
    | true =>
      -- no violation here; the offence lies further right
      rw [hA, Bool.true_and] at hgsplit
      cases hdt : _digits.lookup t with
      | some d =>
        rw [accumStep_digit hdt, accumStepNoMax_digit hdt]
        refine ih t _ hgsplit ?_ ?_
        · intro _
          exact (digits_lookup_bound hdt).1
        · intro hc
          rw [isDigitTok, hdt] at hc
          exact absurd hc (by simp)
      | none =>
        have hnotdig : isDigitTok t = false := by
          rw [isDigitTok, hdt]
          rfl
        cases hpw : _powers_of_10.lookup t with
        | some m =>
          have hprev : isDigitTok prev = true := by
            have hpt : isPowTok t = true := by
              rw [isPowTok, hpw]
              rfl
            rw [hpt] at hA
            simpa using hA
          have hp1 := hd1 hprev
          have hmax : max st.2 1 = st.2 := max_eq_left hp1
          rw [accumStep_pow hdt hpw, accumStepNoMax_pow hdt hpw, hmax]
          refine ih t _ hgsplit ?_ ?_
          · intro hc
            rw [hnotdig] at hc
            exact Bool.noConfusion hc
          · intro _
            rfl
        | none =>
          rw [accumStep_million hdt hpw, accumStepNoMax_million hdt hpw]
          refine ih t _ hgsplit ?_ ?_
          · intro hc
            rw [hnotdig] at hc
            exact Bool.noConfusion hc
          · intro _
            rfl

theorem accumStep_first_eq (t : String) :
    accumStepNoMax (0, 1) t = accumStep (0, 1) t := by
  cases hd : _digits.lookup t with
  | some d => rw [accumStepNoMax_digit hd, accumStep_digit hd]
  | none =>
    cases hp : _powers_of_10.lookup t with
    | some m =>
      rw [accumStepNoMax_pow hd hp, accumStep_pow hd hp]
      norm_num
    | none => rw [accumStepNoMax_million hd hp, accumStep_million hd hp]

theorem accumulate_strict_of_not_guardSafe {toks : List String}
    (hg : guardSafe toks = false) :
    accumulateNoMax toks < accumulate toks := by
  cases toks with
  | nil => exact Bool.noConfusion hg
  | cons t rest =>
    have hg' : guardSafeFrom t rest = false := hg
    show (List.foldl accumStepNoMax (accumStepNoMax (0, 1) t) rest).1 +
        (List.foldl accumStepNoMax (accumStepNoMax (0, 1) t) rest).2 <
      (List.foldl accumStep (accumStep (0, 1) t) rest).1 +
        (List.foldl accumStep (accumStep (0, 1) t) rest).2
    rw [accumStep_first_eq t]
    refine guard_violation_strict rest t _ hg' ?_ ?_
    · intro hc
      obtain ⟨d, hd⟩ := Option.isSome_iff_exists.1 (by rw [← isDigitTok]; exact hc)
      rw [accumStep_digit hd]
      exact (digits_lookup_bound hd).1
    · intro hc
      cases hd : _digits.lookup t with
      | some d =>
        rw [isDigitTok, hd] at hc
        exact Bool.noConfusion hc
      | none =>
        cases hp : _powers_of_10.lookup t with
        | some m => rw [accumStep_pow hd hp]
        | none => rw [accumStep_million hd hp]

theorem slotP_mem {ds : List String} {p : String} {ts : List String}
    (h : SlotP ds p ts) : ∀ x ∈ ts, x = p ∨ x ∈ ds := by
  rcases h with rfl | rfl | ⟨d, hd, rfl⟩
  · intro x hx; cases hx
  · intro x hx
    rcases List.mem_cons.1 hx with rfl | hx
    · exact Or.inl rfl
    · cases hx
  · intro x hx
    rcases List.mem_cons.1 hx with rfl | hx
    · exact Or.inr hd
    · rcases List.mem_cons.1 hx with rfl | hx
      · exact Or.inl rfl
      · cases hx

theorem unitP_mem {ds : List String} {ts : List String}
    (h : UnitP ds ts) : ∀ x ∈ ts, x ∈ ds := by
  rcases h with rfl | ⟨d, hd, rfl⟩
  · intro x hx; cases hx
  · intro x hx
    rcases List.mem_cons.1 hx with rfl | hx
    · exact hd
    · cases hx

theorem slotP_filter {ds : List String} {p : String} {ts : List String}
    (hds : ∀ d ∈ ds, isPowTok d = false) (hp : isPowTok p = true)
    (h : SlotP ds p ts) :
    ts.filter isPowTok = [] ∨ ts.filter isPowTok = [p] := by
  rcases h with rfl | rfl | ⟨d, hd, rfl⟩
  · exact Or.inl rfl
  · right
    simp [List.filter, hp]
  · right
    simp [List.filter, hp, hds d hd]

theorem unitP_filter {ds : List String} {ts : List String}
    (hds : ∀ d ∈ ds, isPowTok d = false) (h : UnitP ds ts) :
    ts.filter isPowTok = [] := by
  rcases h with rfl | ⟨d, hd, rfl⟩
  · rfl
  · simp [List.filter, hds d hd]

theorem groupP_pairwise {g : List String} (h : GroupP g) :
    List.Pairwise (fun a b => multOf b < multOf a) (g.filter isPowTok) := by
  obtain ⟨t1, t2, t3, t4, t5, t6, rfl, h1, h2, h3, h4, h5, h6⟩ := h
  have hd9 : ∀ d ∈ digitsNine, isPowTok d = false := by decide
  have hdt : ∀ d ∈ digitsTens, isPowTok d = false := by decide
  have hdu : ∀ d ∈ digitsUnit, isPowTok d = false := by decide
  have f1 := slotP_filter hd9 (by decide) h1
  have f2 := slotP_filter hd9 (by decide) h2
  have f3 := slotP_filter hd9 (by decide) h3
  have f4 := slotP_filter hd9 (by decide) h4
  have f5 := slotP_filter hdt (by decide) h5
  have f6 := unitP_filter hdu h6
  rw [List.filter_append, List.filter_append, List.filter_append,
    List.filter_append, List.filter_append, f6]
  rcases f1 with hf1 | hf1 <;> rcases f2 with hf2 | hf2 <;>
    rcases f3 with hf3 | hf3 <;> rcases f4 with hf4 | hf4 <;>
    rcases f5 with hf5 | hf5 <;>
    rw [hf1, hf2, hf3, hf4, hf5] <;> decide

theorem pairwise_window {l : List String}
    (hpw : List.Pairwise (fun a b => multOf b < multOf a) (l.filter isPowTok))
    {a b c : List String} {p q : String}
    (hl : l = a ++ p :: (b ++ q :: c))
    (hp : isPowTok p = true) (hq : isPowTok q = true) :
    multOf q < multOf p := by
  subst hl
  rw [List.filter_append, List.filter_cons_of_pos hp] at hpw
  have hright := (List.pairwise_append.1 hpw).2.1
  rw [List.pairwise_cons] at hright
  refine hright.1 q ?_
  rw [List.filter_append, List.filter_cons_of_pos hq]
  exact List.mem_append_right _ (List.mem_cons_self _ _)

theorem seqP_ordered {toks : List String} (h : SeqP toks) :
    ∀ (a b c : List String) (p q : String),
      toks = a ++ p :: (b ++ q :: c) →
      isPowTok p = true → isPowTok q = true → "ล้าน" ∉ b →
      multOf q < multOf p := by
  induction h with
  | last hg =>
    intro a b c p q hl hp hq hb
    exact pairwise_window (groupP_pairwise hg) hl hp hq
  | @more g rest' hg hs ih =>
    intro a b c p q hl hp hq hb
    rcases List.append_eq_append_iff.1 hl with ⟨a', ha1, ha2⟩ | ⟨c', hc1, hc2⟩
    · -- the window lies inside ล้าน :: rest'
      cases a' with
      | nil =>
        injection ha2 with h1 h2
        subst h1
        exact absurd hp (by decide)
      | cons y a'' =>
        injection ha2 with h1 h2
        exact ih a'' b c p q h2 hp hq hb
    · -- the window starts inside the group
      cases c' with
      | nil =>
        rw [List.nil_append] at hc2
        injection hc2 with h1 h2
        subst h1
        exact absurd hp (by decide)
      | cons x c'' =>
        injection hc2 with h1 h2
        subst h1
        rcases List.append_eq_append_iff.1 h2 with ⟨a', hs1, hs2⟩ | ⟨e, he1, he2⟩
        · cases a' with
          | nil =>
            rw [List.nil_append] at hs2
            injection hs2 with h3 h4
            subst h3
            exact absurd hq (by decide)
          | cons y a'' =>
            injection hs2 with h3 h4
            subst h3
            have hgdec : g = a ++ p :: (b ++ q :: a'') := by rw [hc1, hs1]
            exact pairwise_window (groupP_pairwise hg) hgdec hp hq
        · cases e with
          | nil =>
            injection he2 with h3 h4
            subst h3
            exact absurd hq (by decide)
          | cons z e' =>
            injection he2 with h3 h4
            have hmem : "ล้าน" ∈ b := by
              rw [he1, ← h3]
              exact List.mem_append_right _ (List.mem_cons_self _ _)
            exact absurd hmem hb

theorem split_not_mem {pre post a rest : List String} {x : String}
    (h : pre ++ post = a ++ x :: rest) (hx : x ∉ pre) :
    ∃ a', post = a' ++ x :: rest ∧ a = pre ++ a' := by
  induction pre generalizing a with
  | nil => exact ⟨a, h, rfl⟩
  | cons y pre ih =>
    cases a with
    | nil =>
      injection h with h1 h2
      subst h1
      exact absurd (List.mem_cons_self _ _) hx
    | cons z a =>
      injection h with h1 h2
      subst h1
      obtain ⟨a', hp2, ha⟩ := ih h2 (fun hm => hx (List.mem_cons_of_mem _ hm))
      exact ⟨a', hp2, by rw [List.cons_append, ha]⟩

theorem split_across {pre post a rest : List String} {x : String}
    (h : pre ++ post = a ++ x :: rest) :
    (∃ mid, pre = a ++ x :: mid ∧ rest = mid ++ post) ∨
    (∃ a', a = pre ++ a' ∧ post = a' ++ x :: rest) := by
  rcases List.append_eq_append_iff.1 h with ⟨a', h1, h2⟩ | ⟨c', h1, h2⟩
  · exact Or.inr ⟨a', h1, h2⟩
  · cases c' with
    | nil =>
      rw [List.append_nil] at h1
      right
      refine ⟨[], by rw [h1, List.append_nil], ?_⟩
      rw [List.nil_append]
      exact h2.symm
    | cons z c'' =>
      injection h2 with h3 h4
      subst h3
      left
      exact ⟨c'', by rw [h1], h4⟩

theorem groupP_ed {g : List String} (h : GroupP g) :
    ∀ a rest, g = a ++ "เอ็ด" :: rest → rest = [] := by
  obtain ⟨t1, t2, t3, t4, t5, t6, rfl, h1, h2, h3, h4, h5, h6⟩ := h
  intro a rest hga
  have hn1 : "เอ็ด" ∉ t1 := fun hm => by
    rcases slotP_mem h1 _ hm with h | h <;> revert h <;> decide
  have hn2 : "เอ็ด" ∉ t2 := fun hm => by
    rcases slotP_mem h2 _ hm with h | h <;> revert h <;> decide
  have hn3 : "เอ็ด" ∉ t3 := fun hm => by
    rcases slotP_mem h3 _ hm with h | h <;> revert h <;> decide
  have hn4 : "เอ็ด" ∉ t4 := fun hm => by
    rcases slotP_mem h4 _ hm with h | h <;> revert h <;> decide
  have hn5 : "เอ็ด" ∉ t5 := fun hm => by
    rcases slotP_mem h5 _ hm with h | h <;> revert h <;> decide
  have hni : "เอ็ด" ∉ t1 ++ t2 ++ t3 ++ t4 ++ t5 := by
    intro hm
    simp only [List.mem_append] at hm
    rcases hm with (((hm | hm) | hm) | hm) | hm
    exacts [hn1 hm, hn2 hm, hn3 hm, hn4 hm, hn5 hm]
  obtain ⟨a', hpost, ha⟩ := split_not_mem hga hni
  rcases h6 with rfl | ⟨d, hd, rfl⟩
  · simp at hpost
  · cases a' with
    | nil =>
      rw [List.nil_append] at hpost
      injection hpost with hd1 hd2
      exact hd2.symm
    | cons y a'' =>
      injection hpost with hd1 hd2
      simp at hd2

theorem groupP_yi {g : List String} (h : GroupP g) :
    ∀ a rest, g = a ++ "ยี่" :: rest → ∃ r', rest = "สิบ" :: r' := by
  obtain ⟨t1, t2, t3, t4, t5, t6, rfl, h1, h2, h3, h4, h5, h6⟩ := h
  intro a rest hga
  have hn1 : "ยี่" ∉ t1 := fun hm => by
    rcases slotP_mem h1 _ hm with h | h <;> revert h <;> decide
  have hn2 : "ยี่" ∉ t2 := fun hm => by
    rcases slotP_mem h2 _ hm with h | h <;> revert h <;> decide
  have hn3 : "ยี่" ∉ t3 := fun hm => by
    rcases slotP_mem h3 _ hm with h | h <;> revert h <;> decide
  have hn4 : "ยี่" ∉ t4 := fun hm => by
    rcases slotP_mem h4 _ hm with h | h <;> revert h <;> decide
  have hn6 : "ยี่" ∉ t6 := fun hm => by
    have hconc := unitP_mem h6 _ hm
    revert hconc
    decide
  have hni : "ยี่" ∉ t1 ++ t2 ++ t3 ++ t4 := by
    intro hm
    simp only [List.mem_append] at hm
    rcases hm with ((hm | hm) | hm) | hm
    exacts [hn1 hm, hn2 hm, hn3 hm, hn4 hm]
  have hga2 : (t1 ++ t2 ++ t3 ++ t4) ++ (t5 ++ t6) = a ++ "ยี่" :: rest := by
    rw [← List.append_assoc]
    exact hga
  obtain ⟨a', hpost, ha⟩ := split_not_mem hga2 hni
  rcases h5 with rfl | rfl | ⟨d, hd, rfl⟩
  · rw [List.nil_append] at hpost
    have hmem : "ยี่" ∈ t6 := by
      rw [hpost]
      exact List.mem_append_right _ (List.mem_cons_self _ _)
    exact absurd hmem hn6
  · cases a' with
    | nil =>
      rw [List.nil_append] at hpost
      injection hpost with hx1 hx2
      exact absurd hx1 (by decide)
    | cons y a'' =>
      injection hpost with hx1 hx2
      have hx2' : t6 = a'' ++ "ยี่" :: rest := hx2
      have hmem : "ยี่" ∈ t6 := by
        rw [hx2']
        exact List.mem_append_right _ (List.mem_cons_self _ _)
      exact absurd hmem hn6
  · cases a' with
    | nil =>
      rw [List.nil_append] at hpost
      injection hpost with hx1 hx2
      exact ⟨t6, hx2.symm⟩
    | cons y a'' =>
      injection hpost with hx1 hx2
      cases a'' with
      | nil =>
        have hx2' : "สิบ" :: t6 = "ยี่" :: rest := hx2
        injection hx2' with hy1 hy2
        exact absurd hy1 (by decide)
      | cons z a3 =>
        have hx2' : "สิบ" :: t6 = z :: (a3 ++ "ยี่" :: rest) := hx2
        injection hx2' with hy1 hy2
        have hmem : "ยี่" ∈ t6 := by
          rw [hy2]
          exact List.mem_append_right _ (List.mem_cons_self _ _)
        exact absurd hmem hn6

theorem seqP_ed {toks : List String} (h : SeqP toks) :
    ∀ a rest, toks = a ++ "เอ็ด" :: rest →
      rest = [] ∨ ∃ r, rest = "ล้าน" :: r := by
  induction h with
  | last hg => intro a rest hl; exact Or.inl (groupP_ed hg a rest hl)
  | @more g rest' hg hs ih =>
    intro a rest hl
    rcases split_across hl with ⟨mid, hpre, hrest⟩ | ⟨a', ha, hpost⟩
    · have hmid : mid = [] := groupP_ed hg a mid hpre
      subst hmid
      rw [List.nil_append] at hrest
      exact Or.inr ⟨rest', hrest⟩
    · cases a' with
      | nil =>
        rw [List.nil_append] at hpost
        injection hpost with h1 h2
        exact absurd h1 (by decide)
      | cons y a'' =>
        injection hpost with h1 h2
        exact ih a'' rest h2

theorem seqP_yi {toks : List String} (h : SeqP toks) :
    ∀ a rest, toks = a ++ "ยี่" :: rest → ∃ r, rest = "สิบ" :: r := by
  induction h with
  | last hg => intro a rest hl; exact groupP_yi hg a rest hl
  | @more g rest' hg hs ih =>
    intro a rest hl
    rcases split_across hl with ⟨mid, hpre, hrest⟩ | ⟨a', ha, hpost⟩
    · obtain ⟨r', hr⟩ := groupP_yi hg a mid hpre
      subst hr
      rw [List.cons_append] at hrest
      exact ⟨r' ++ "ล้าน" :: rest', hrest⟩
    · cases a' with
      | nil =>
        rw [List.nil_append] at hpost
        injection hpost with h1 h2
        exact absurd h1 (by decide)
      | cons y a'' =>
        injection hpost with h1 h2
        exact ih a'' rest h2

theorem thaiword_eval_match {w : String} (h0 : w ≠ "") (h1 : w ≠ "ศูนย์")
    (hm : Regex.matchL _re_thai_numerals w.data = true) {toks : List String}
    (ht : word_tokenize w = some toks) :
    thaiword_to_num (.str w) = .ok (accumulate toks) := by
  simp only [thaiword_to_num]
  rw [if_neg h0, if_neg h1, if_pos hm, ht]

theorem thaiword_eval_nomatch {w : String} (h0 : w ≠ "") (h1 : w ≠ "ศูนย์")
    (hm : Regex.matchL _re_thai_numerals w.data = false) :
    thaiword_to_num (.str w) = .error .valueError := by
  simp only [thaiword_to_num]
  rw [if_neg h0, if_neg h1, if_neg (by simp [hm])]

theorem thaiword_nomax_eval_match {w : String} (h0 : w ≠ "")
    (h1 : w ≠ "ศูนย์")
    (hm : Regex.matchL _re_thai_numerals w.data = true) {toks : List String}
    (ht : word_tokenize w = some toks) :
    thaiword_to_num_nomax (.str w) = .ok (accumulateNoMax toks) := by
  simp only [thaiword_to_num_nomax]
  rw [if_neg h0, if_neg h1, if_pos hm, ht]

/-- C1: on every validated input, `thaiword_to_num` returns exactly the
value of the left-to-right scan the design document describes
(`specScan`), applied to the token sequence the tokenizer produces:
total starts at 0 and pending at 1; a digit token sets the pending
digit; a place-multiplier token adds `max(pending, 1)` times its
multiplier to the total and clears pending; the million token sets
`total := (total + pending) * 1000000` and clears pending; after the
scan the remaining pending digit is added and the total returned. -/
theorem thaiword_to_num_follows_specScan (w : String) (toks : List String)
    (h0 : w ≠ "") (h1 : w ≠ "ศูนย์")
    (hm : Regex.matchL _re_thai_numerals w.data = true)
    (ht : word_tokenize w = some toks) :
    thaiword_to_num (.str w) = .ok (specScan toks) := by
  rw [thaiword_eval_match h0 h1 hm ht,
    specScan_eq_accumulate (tokenizeAux_mem_vocab _ _ _ ht)]

/-- Witness for C1 at the concrete input สอง. -/
theorem thaiword_to_num_follows_specScan_witness :
    ("สอง" : String) ≠ "" ∧ ("สอง" : String) ≠ "ศูนย์" ∧
    Regex.matchL _re_thai_numerals ("สอง" : String).data = true ∧
    word_tokenize "สอง" = some ["สอง"] ∧
    thaiword_to_num (.str "สอง") = .ok (specScan ["สอง"]) :=
  ⟨by decide, by decide, by decide, by decide,
    thaiword_to_num_follows_specScan "สอง" ["สอง"] (by decide) (by decide)
      (by decide) (by decide)⟩

/-- C2: the total case analysis of `thaiword_to_num`: a non-string value
raises the type error; the empty string raises the value error; the
zero word returns 0; every other string fully matching the numeral
pattern returns a non-negative integer; every other string raises the
value error — no partial result and no silent default. -/
theorem thaiword_to_num_total_cases :
    thaiword_to_num .nonStr = .error .typeError ∧
    thaiword_to_num (.str "") = .error .valueError ∧
    thaiword_to_num (.str "ศูนย์") = .ok 0 ∧
    (∀ w : String, w ≠ "" → w ≠ "ศูนย์" →
      Regex.matchL _re_thai_numerals w.data = true →
      ∃ n : Int, 0 ≤ n ∧ thaiword_to_num (.str w) = .ok n) ∧
    (∀ w : String, w ≠ "" → w ≠ "ศูนย์" →
      Regex.matchL _re_thai_numerals w.data = false →
      thaiword_to_num (.str w) = .error .valueError) := by
  refine ⟨rfl, rfl, rfl, ?_, ?_⟩
  · intro w h0 h1 hm
    obtain ⟨toks, ht, _, _, _⟩ := match_tokenize hm
    exact ⟨accumulate toks, le_trans (by norm_num) (accumulate_pos toks),
      thaiword_eval_match h0 h1 hm ht⟩
  · intro w h0 h1 hm
    exact thaiword_eval_nomatch h0 h1 hm

/-- Witness for C2 at the accepted input สาม and the rejected input
abc. -/
theorem thaiword_to_num_total_cases_witness :
    (∃ n : Int, 0 ≤ n ∧ thaiword_to_num (.str "สาม") = .ok n) ∧
    thaiword_to_num (.str "abc") = .error .valueError :=
  ⟨thaiword_to_num_total_cases.2.2.2.1 "สาม" (by decide) (by decide)
      (by decide),
    thaiword_to_num_total_cases.2.2.2.2 "abc" (by decide) (by decide)
      (by decide)⟩

/-- C3: the twelve literal scenarios of the design document, each
evaluated on the embedded `thaiword_to_num`. -/
theorem thaiword_to_num_literal_scenarios :
    thaiword_to_num (.str "ศูนย์") = .ok 0 ∧
    thaiword_to_num (.str "หนึ่ง") = .ok 1 ∧
    thaiword_to_num (.str "สิบเอ็ด") = .ok 11 ∧
    thaiword_to_num (.str "เก้าสิบเอ็ด") = .ok 91 ∧
    thaiword_to_num (.str "หกร้อยหนึ่ง") = .ok 601 ∧
    thaiword_to_num (.str "สองพัน") = .ok 2000 ∧
    thaiword_to_num (.str "สองหมื่น") = .ok 20000 ∧
    thaiword_to_num (.str "สองแสน") = .ok 200000 ∧
    thaiword_to_num (.str "สองล้าน") = .ok 2000000 ∧
    thaiword_to_num (.str "สองล้านสามแสนหกร้อยสิบสอง") = .ok 2300612 ∧
    thaiword_to_num (.str "หนึ่งร้อยล้าน") = .ok 100000000 ∧
    thaiword_to_num (.str "สิบห้าล้านล้าน") = .ok 15000000000000 :=
  ⟨rfl, rfl, rfl, rfl, rfl, rfl, rfl, rfl, rfl, rfl, rfl, rfl⟩

/-- C4 as stated is false: แสนหมื่น passes validation, yet replacing
`max(pending, 1)` by the bare pending digit changes the result from
110000 to 100000 — the second place word follows a place word through
an empty digit slot, so pending is 0 there, not at least 1. -/
theorem max_guard_counterexample :
    Regex.matchL _re_thai_numerals ("แสนหมื่น" : String).data = true ∧
    thaiword_to_num (.str "แสนหมื่น") = .ok 110000 ∧
    thaiword_to_num_nomax (.str "แสนหมื่น") = .ok 100000 ∧
    thaiword_to_num_nomax (.str "แสนหมื่น") ≠ thaiword_to_num (.str "แสนหมื่น") := by
  refine ⟨by decide, rfl, rfl, ?_⟩
  intro h
  rw [show thaiword_to_num_nomax (.str "แสนหมื่น") = .ok (100000 : Int) from rfl,
    show thaiword_to_num (.str "แสนหมื่น") = .ok (110000 : Int) from rfl] at h
  injection h with h
  exact absurd h (by norm_num)

/-- C4 amended: on a validated input, the guard never alters the value
exactly when every place-multiplier token of the token sequence is
immediately preceded by a digit token (the first token excepted, the
pending digit starting at 1): the guard-free accumulation agrees with
the source's if and only if the token sequence is guard-safe — on every
validated input violating that shape, the pending digit is 0 at some
place-multiplier and the guard strictly changes the result. -/
theorem max_guard_neutral_iff_guardSafe (w : String) (toks : List String)
    (h0 : w ≠ "") (h1 : w ≠ "ศูนย์")
    (hm : Regex.matchL _re_thai_numerals w.data = true)
    (ht : word_tokenize w = some toks) :
    (thaiword_to_num_nomax (.str w) = thaiword_to_num (.str w)) ↔
      guardSafe toks = true := by
  rw [thaiword_eval_match h0 h1 hm ht, thaiword_nomax_eval_match h0 h1 hm ht]
  constructor
  · intro h
    cases hgs : guardSafe toks with
    | true => rfl
    | false =>
      exfalso
      have hlt := accumulate_strict_of_not_guardSafe hgs
      injection h with h
      omega
  · intro hgs
    rw [accumulateNoMax_eq hgs]

/-- Witness for the amended C4: the guard-safe input สองร้อย evaluates
equally with and without the guard, while แสนหมื่น (a place word
directly after a place word) does not. -/
theorem max_guard_neutral_iff_guardSafe_witness :
    thaiword_to_num_nomax (.str "สองร้อย") = thaiword_to_num (.str "สองร้อย") ∧
    thaiword_to_num_nomax (.str "แสนหมื่น") ≠ thaiword_to_num (.str "แสนหมื่น") := by
  constructor
  · exact (max_guard_neutral_iff_guardSafe "สองร้อย" ["สอง", "ร้อย"]
      (by decide) (by decide) (by decide) (by decide)).2 (by decide)
  · intro h
    have hgs := (max_guard_neutral_iff_guardSafe "แสนหมื่น" ["แสน", "หมื่น"]
      (by decide) (by decide) (by decide) (by decide)).1 h
    exact absurd hgs (by decide)

/-- C5: validation requires the whole string to match: a string of which
only a proper prefix matches the pattern raises the value error, and a
string whose token sequence repeats a place-value word at the same
magnitude (no million word in between) or lists place-value words out
of descending order raises the value error. -/
theorem invalid_structure_rejected :
    (∀ (w : String) (u v : List Char), w.data = u ++ v → v ≠ [] →
      Regex.matchL _re_thai_numerals u = true →
      Regex.matchL _re_thai_numerals w.data = false →
      w ≠ "" → w ≠ "ศูนย์" →
      thaiword_to_num (.str w) = .error .valueError) ∧
    (∀ (w : String) (toks a b c : List String) (p q : String),
      word_tokenize w = some toks →
      toks = a ++ p :: (b ++ q :: c) →
      isPowTok p = true → isPowTok q = true → "ล้าน" ∉ b →
      multOf p ≤ multOf q →
      thaiword_to_num (.str w) = .error .valueError) := by
  constructor
  · intro w u v hsplit hv hu hm h0 h1
    exact thaiword_eval_nomatch h0 h1 hm
  · intro w toks a b c p q ht hdec hp hq hb hle
    have h1 : w ≠ "ศูนย์" := by
      intro he
      subst he
      rw [show word_tokenize "ศูนย์" = none from rfl] at ht
      exact Option.noConfusion ht
    have h0 : w ≠ "" := by
      intro he
      subst he
      rw [show word_tokenize "" = some [] from rfl] at ht
      injection ht with ht
      rw [← ht] at hdec
      simp at hdec
    by_cases hm : Regex.matchL _re_thai_numerals w.data = true
    · exfalso
      obtain ⟨toks', ht', _, hseq, _⟩ := match_tokenize hm
      rw [ht] at ht'
      injection ht' with ht'
      subst ht'
      have hlt := seqP_ordered hseq a b c p q hdec hp hq hb
      omega
    · exact thaiword_eval_nomatch h0 h1 (by simpa using hm)

/-- Witness for C5: ร้อยร้อย (a repeated place word; its proper prefix
ร้อย matches) and สิบร้อย (ten before hundred) are both rejected. -/
theorem invalid_structure_rejected_witness :
    thaiword_to_num (.str "ร้อยร้อย") = .error .valueError ∧
    thaiword_to_num (.str "สิบร้อย") = .error .valueError :=
  ⟨invalid_structure_rejected.1 "ร้อยร้อย" "ร้อย".data "ร้อย".data
      (by decide) (by decide) (by decide) (by decide) (by decide) (by decide),
    invalid_structure_rejected.2 "สิบร้อย" ["สิบ", "ร้อย"] [] [] [] "สิบ"
      "ร้อย" (by decide) (by decide) (by decide) (by decide) (by decide)
      (by decide)⟩

/-- C6: `thaiword_to_num` returns 0 exactly on the zero word ศูนย์, and
every string properly containing the zero word (the zero word combined
with anything else) raises the value error. -/
theorem zero_word_exact :
    (∀ w : String, thaiword_to_num (.str w) = .ok 0 ↔ w = "ศูนย์") ∧
    (∀ (w : String) (u v : List Char), w.data = u ++ "ศูนย์".data ++ v →
      w ≠ "ศูนย์" → thaiword_to_num (.str w) = .error .valueError) := by
  constructor
  · intro w
    constructor
    · intro h
      by_cases h0 : w = ""
      · subst h0
        exact Except.noConfusion h
      · by_cases h1 : w = "ศูนย์"
        · exact h1
        · by_cases hm : Regex.matchL _re_thai_numerals w.data = true
          · obtain ⟨toks, ht, _, _, _⟩ := match_tokenize hm
            rw [thaiword_eval_match h0 h1 hm ht] at h
            injection h with h
            have hpos := accumulate_pos toks
            omega
          · rw [thaiword_eval_nomatch h0 h1 (by simpa using hm)] at h
            exact Except.noConfusion h
    · intro h
      subst h
      rfl
  · intro w u v hdata h1
    have hch : 'ศ' ∈ w.data := by
      rw [hdata]
      exact List.mem_append_left _ (List.mem_append_right _ (by decide))
    have h0 : w ≠ "" := by
      intro he
      subst he
      exact absurd hch (by decide)
    by_cases hm : Regex.matchL _re_thai_numerals w.data = true
    · exfalso
      have hM := Regex.matchL_matches w.data _ hm
      have hat := Regex.matches_mem_atoms hM 'ศ' hch
      revert hat
      decide
    · exact thaiword_eval_nomatch h0 h1 (by simpa using hm)

/-- Witness for C6: สอง does not return 0, and ศูนย์สอง (zero word
followed by a digit word) is rejected. -/
theorem zero_word_exact_witness :
    (thaiword_to_num (.str "สอง") = .ok 0 ↔ ("สอง" : String) = "ศูนย์") ∧
    thaiword_to_num (.str "ศูนย์สอง") = .error .valueError :=
  ⟨zero_word_exact.1 "สอง",
    zero_word_exact.2 "ศูนย์สอง" [] "สอง".data (by decide) (by decide)⟩

/-- C7: the alternate digit forms are position-restricted: in every
accepted input, the token after เอ็ด is either absent or the million
word (never a place multiplier), and the token after ยี่ is always สิบ;
เอ็ดสิบ and the bare ยี่ are rejected, ยี่สิบ evaluates to 20, and a
trailing เอ็ด contributes 1 (สิบเอ็ด is 11). -/
theorem alternate_digit_positions :
    (∀ (w : String) (toks a rest : List String),
      Regex.matchL _re_thai_numerals w.data = true →
      word_tokenize w = some toks →
      toks = a ++ "เอ็ด" :: rest →
      rest = [] ∨ ∃ r, rest = "ล้าน" :: r) ∧
    (∀ (w : String) (toks a rest : List String),
      Regex.matchL _re_thai_numerals w.data = true →
      word_tokenize w = some toks →
      toks = a ++ "ยี่" :: rest →
      ∃ r, rest = "สิบ" :: r) ∧
    thaiword_to_num (.str "เอ็ดสิบ") = .error .valueError ∧
    thaiword_to_num (.str "ยี่") = .error .valueError ∧
    thaiword_to_num (.str "ยี่สิบ") = .ok 20 ∧
    thaiword_to_num (.str "สิบเอ็ด") = .ok 11 := by
  refine ⟨?_, ?_, rfl, rfl, rfl, rfl⟩
  · intro w toks a rest hm ht hdec
    obtain ⟨toks', ht', _, hseq, _⟩ := match_tokenize hm
    rw [ht] at ht'
    injection ht' with ht'
    subst ht'
    exact seqP_ed hseq a rest hdec
  · intro w toks a rest hm ht hdec
    obtain ⟨toks', ht', _, hseq, _⟩ := match_tokenize hm
    rw [ht] at ht'
    injection ht' with ht'
    subst ht'
    exact seqP_yi hseq a rest hdec

/-- Witness for C7 at the accepted inputs สิบเอ็ด and ยี่สิบ. -/
theorem alternate_digit_positions_witness :
    (([] : List String) = [] ∨ ∃ r, ([] : List String) = "ล้าน" :: r) ∧
    (∃ r, (["สิบ"] : List String) = "สิบ" :: r) :=
  ⟨alternate_digit_positions.1 "สิบเอ็ด" ["สิบ", "เอ็ด"] ["สิบ"] []
      (by decide) (by decide) (by decide),
    alternate_digit_positions.2.1 "ยี่สิบ" ["ยี่", "สิบ"] [] ["สิบ"]
      (by decide) (by decide) (by decide)⟩

/-- C8: the accumulation state invariant: each scan step preserves
non-negativity of the total and the pending digit, the scan starts from
total 0 and pending 1, every accumulated value is non-negative, and
every integer `thaiword_to_num` returns is non-negative. -/
theorem accumulation_nonneg_invariant :
    (∀ (st : Int × Int) (t : String), 0 ≤ st.1 → 0 ≤ st.2 →
      0 ≤ (accumStep st t).1 ∧ 0 ≤ (accumStep st t).2) ∧
    (∀ toks : List String, 0 ≤ accumulate toks) ∧
    (∀ (x : PyInput) (n : Int), thaiword_to_num x = .ok n → 0 ≤ n) := by
  refine ⟨?_, ?_, ?_⟩
  · intro st t h1 h2
    cases hd : _digits.lookup t with
    | some d =>
      rw [accumStep_digit hd]
      have hb := (digits_lookup_bound hd).1
      exact ⟨h1, by omega⟩
    | none =>
      cases hp : _powers_of_10.lookup t with
      | some m =>
        rw [accumStep_pow hd hp]
        have hm10 := pows_lookup_bound hp
        have hmax : (1 : Int) ≤ max st.2 1 := le_max_right _ _
        have hprod : (0 : Int) ≤ max st.2 1 * m :=
          mul_nonneg (by omega) (by omega)
        exact ⟨by omega, le_refl 0⟩
      | none =>
        rw [accumStep_million hd hp]
        exact ⟨mul_nonneg (by omega) (by norm_num), le_refl 0⟩
  · intro toks
    have := accumulate_pos toks
    omega
  · intro x n h
    cases x with
    | nonStr => exact Except.noConfusion h
    | str w =>
      by_cases h0 : w = ""
      · subst h0
        exact Except.noConfusion h
      · by_cases h1 : w = "ศูนย์"
        · subst h1
          have h2 : Except.ok (ε := NumError) (0 : Int) = .ok n := h
          injection h2 with h2
          omega
        · by_cases hm : Regex.matchL _re_thai_numerals w.data = true
          · obtain ⟨toks, ht, _, _, _⟩ := match_tokenize hm
            rw [thaiword_eval_match h0 h1 hm ht] at h
            injection h with h
            have := accumulate_pos toks
            omega
          · rw [thaiword_eval_nomatch h0 h1 (by simpa using hm)] at h
            exact Except.noConfusion h

/-- Witness for C8 at a concrete state, token list and accepted call. -/
theorem accumulation_nonneg_invariant_witness :
    (0 ≤ (accumStep (5, 2) "ร้อย").1 ∧ 0 ≤ (accumStep (5, 2) "ร้อย").2) ∧
    0 ≤ accumulate ["สอง"] ∧ (0 : Int) ≤ 11 :=
  ⟨accumulation_nonneg_invariant.1 (5, 2) "ร้อย" (by norm_num) (by norm_num),
    accumulation_nonneg_invariant.2.1 ["สอง"],
    accumulation_nonneg_invariant.2.2 (.str "สิบเอ็ด") 11 rfl⟩

/-- C9: `thaiword_to_num` terminates on every input: it is a total
function, every call reducing to a value or an error — validation is
one full match of the pattern and accumulation one pass over the finite
token list. -/
theorem thaiword_to_num_terminates :
    ∀ x : PyInput, (∃ n, thaiword_to_num x = .ok n) ∨
      (∃ e, thaiword_to_num x = .error e) := by
  intro x
  cases hr : thaiword_to_num x with
  | ok n => exact Or.inl ⟨n, rfl⟩
  | error e => exact Or.inr ⟨e, rfl⟩

/-- C10: the bare million word ล้าน is accepted by the validator and
evaluates to 1,000,000, because the pending digit is initialized to 1:
the result is (0 + 1) × 1,000,000, not 0. -/
theorem bare_million_word_value :
    Regex.matchL _re_thai_numerals ("ล้าน" : String).data = true ∧
    thaiword_to_num (.str "ล้าน") = .ok 1000000 :=
  ⟨by decide, rfl⟩

end ThaiNum
